import Mathlib

/-!
Shallow embedding of the scoring pipelines of the tradingview-data-pipeline
repository: the percentile pipeline of `src/calfundamentalscore.py` and the
hierarchical z-score pipeline of `src/calcompositescore.py`.

Modelling conventions.  Numeric cells are exact rationals (`ℚ`); nullable
cells are `Option ℚ` (with `none` playing the role of pandas `NaN`).
Python's `round(x, 2)` is modelled as rounding `x * 100` to the nearest
integer and dividing back.  The sample standard deviation computed by
`pandas.Series.std()` (`ddof = 1`) is the square root of the sample
variance; square roots are not rational-valued, so the embedding passes the
square-root function used by the hierarchical pipeline as an explicit
argument `sq : ℚ → ℚ`, and theorems that depend on `sq` really being a
square root constrain it by the defining equations `sq v ^ 2 = v` and
`0 ≤ sq v` at exactly the points where the code uses it.  Stock symbols,
sectors and industries are numeric identifiers (the Python strings carry no
structure that the pipelines use beyond equality), while metric names stay
strings because the metric configuration tables are keyed by name.
-/

/-- Python `round(x, 2)`: round to the nearest hundredth. -/
def round2 (x : ℚ) : ℚ := ((round (x * 100) : ℤ) : ℚ) / 100

/-- Helper of `uniqueFirst`: drop the elements already seen, keep the first
occurrence of each new element. -/
def uniqueFirstAux {α : Type} [DecidableEq α] (seen : List α) : List α → List α
  | [] => []
  | a :: l => if a ∈ seen then uniqueFirstAux seen l else a :: uniqueFirstAux (a :: seen) l

/-- pandas `Series.unique()`: deduplicate keeping the first occurrence. -/
def uniqueFirst {α : Type} [DecidableEq α] (l : List α) : List α := uniqueFirstAux [] l

/-! ### Percentile pipeline (`src/calfundamentalscore.py`) -/

/-- One row of the static metric configuration tables (a `MetricSpec`):
metric name, weight, directionality, optional cap. -/
structure MetricCfg where
  name : String
  weight : ℚ
  higher_is_better : Bool
  cap : Option ℚ
deriving DecidableEq

/-- Quality metrics (lines 57-63 of `calfundamentalscore.py`). -/
def QUALITY_METRICS : List MetricCfg :=
  [⟨"return_on_equity_ttm", 0.12, true, none⟩,
   ⟨"return_on_invested_capital_ttm", 0.10, true, none⟩,
   ⟨"operating_margin_ttm", 0.08, true, none⟩,
   ⟨"net_margin_ttm", 0.06, true, none⟩,
   ⟨"gross_margin_annual", 0.04, true, none⟩]

/-- Growth metrics (lines 66-71). -/
def GROWTH_METRICS : List MetricCfg :=
  [⟨"eps_diluted_growth_ttm_yoy", 0.10, true, none⟩,
   ⟨"revenue_growth_annual_yoy", 0.08, true, none⟩,
   ⟨"eps_diluted_growth_annual_yoy", 0.06, true, none⟩,
   ⟨"net_income_growth_annual_yoy", 0.06, true, none⟩]

/-- Valuation metrics (lines 74-80), lower is better. -/
def VALUATION_METRICS : List MetricCfg :=
  [⟨"pe_ratio", 0.07, false, none⟩,
   ⟨"price_to_earnings_growth_ttm", 0.05, false, none⟩,
   ⟨"enterprise_value_to_ebitda_ttm", 0.04, false, none⟩,
   ⟨"price_to_book_ratio", 0.02, false, none⟩,
   ⟨"price_to_sales_ratio", 0.02, false, none⟩]

/-- Financial health metrics (lines 83-88); three of them carry caps. -/
def HEALTH_METRICS : List MetricCfg :=
  [⟨"current_ratio_quarterly", 0.03, true, some 3.0⟩,
   ⟨"debt_to_equity_ratio_quarterly", 0.03, false, none⟩,
   ⟨"quick_ratio_quarterly", 0.02, true, some 2.0⟩,
   ⟨"ebitda_interest_coverage_ttm", 0.02, true, some 10.0⟩]

/-- All metric configurations (line 90). -/
def ALL_METRICS : List MetricCfg :=
  QUALITY_METRICS ++ GROWTH_METRICS ++ VALUATION_METRICS ++ HEALTH_METRICS

/-- Minimum peers required for relative scoring (line 50). -/
def MIN_PEERS : ℕ := 5

/-- One stock row of the percentile pipeline: identifier, nullable
classification attributes, and named metric cells. -/
structure FStock where
  symbol : ℕ
  sector : Option ℕ
  industry : Option ℕ
  metrics : List (String × Option ℚ)
deriving DecidableEq

/-- Reading a metric cell of a row (`row.get(metric)`); a missing column and
a `NaN` cell are both `none`. -/
def FStock.get (s : FStock) (m : String) : Option ℚ := (s.metrics.lookup m).getD none

/-- Embeds `calculate_percentile` (lines 125-147): `NaN` value propagates as
`NaN`; fewer than 2 non-null peer values yields the neutral 50.0; otherwise
the fraction of strictly worse non-null peer values, times 100, rounded to
2 decimals. -/
def calculate_percentile (values : List (Option ℚ)) (value : Option ℚ)
    (higher_is_better : Bool) : Option ℚ :=
  match value with
  | none => none
  | some v =>
    let valid_values := values.filterMap id
    if valid_values.length < 2 then some 50
    else
      let rank : ℕ :=
        if higher_is_better then valid_values.countP (fun x => decide (x < v))
        else valid_values.countP (fun x => decide (v < x))
      some (round2 ((rank : ℚ) / (valid_values.length : ℚ) * 100))

/-- Peer-group level labels recorded per stock. -/
inductive PeerLevel
  | industry
  | sector
  | all
deriving DecidableEq

/-- The sector/all tail of `get_peer_group` (lines 161-168).  A null sector
matches nothing, as with pandas `NaN` equality. -/
def get_peer_group_sector (df : List FStock) (sector : Option ℕ) :
    List FStock × PeerLevel :=
  match sector with
  | some j =>
    let sector_peers := df.filter (fun r => r.sector = some j)
    if MIN_PEERS ≤ sector_peers.length then (sector_peers, PeerLevel.sector)
    else (df, PeerLevel.all)
  | none => (df, PeerLevel.all)

/-- Embeds `get_peer_group` (lines 150-168): industry peers if at least
`MIN_PEERS`, else sector peers if at least `MIN_PEERS`, else the whole
universe.  A null industry matches nothing (the `pd.notna` guard). -/
def get_peer_group (df : List FStock) (symbol : ℕ) (sector industry : Option ℕ) :
    List FStock × PeerLevel :=
  match industry with
  | some i =>
    let industry_peers := df.filter (fun r => r.industry = some i)
    if MIN_PEERS ≤ industry_peers.length then (industry_peers, PeerLevel.industry)
    else get_peer_group_sector df sector
  | none => get_peer_group_sector df sector

/-- Whether a metric name is listed in the valuation table (the
`metric in VALUATION_METRICS` dictionary-membership test). -/
def isValuationMetric (name : String) : Bool :=
  VALUATION_METRICS.any (fun c => c.name = name)

/-- Whether a nullable cell holds a strictly positive value (the pandas
comparison `df[metric] > 0`, false on `NaN`). -/
def posVal : Option ℚ → Bool
  | some w => decide (0 < w)
  | none => false

/-- Whether a nullable cell holds a non-positive value (the test
`pd.notna(value) and value <= 0`). -/
def nonposVal : Option ℚ → Bool
  | some v => decide (v ≤ 0)
  | none => false

/-- Embeds `filter_valid_valuation` (lines 184-191): for valuation metrics,
keep only rows with a strictly positive value of the metric. -/
def filter_valid_valuation (df : List FStock) (metric : String) : List FStock :=
  if isValuationMetric metric then df.filter (fun r => posVal (r.get metric)) else df

/-- Clipping one metric cell to its configured cap, if any. -/
def capCell (name : String) (v : Option ℚ) : Option ℚ :=
  match (ALL_METRICS.find? (fun c => c.name = name)).bind (fun c => c.cap) with
  | some cap => v.map (fun x => min x cap)
  | none => v

/-- Embeds `apply_caps` (lines 171-181): clip every configured metric column
to its cap, once per run, before any scoring. -/
def apply_caps (df : List FStock) : List FStock :=
  df.map (fun s => { s with metrics := s.metrics.map (fun p => (p.1, capCell p.1 p.2)) })

/-- Embeds `calculate_category_score` (lines 194-216): collect the present
(non-null) percentiles of the category with their configured weights,
return `none` if none are present, otherwise renormalize the collected
weights to sum to 1 and return the weighted sum rounded to 2 decimals.
The configuration tables are never modified (the function is pure). -/
def calculate_category_score (scores : List (String × Option ℚ))
    (category_metrics : List MetricCfg) : Option ℚ :=
  let available := category_metrics.filterMap (fun cfg =>
    ((scores.lookup cfg.name).getD none).map (fun s => (s, cfg.weight)))
  if available = [] then none
  else
    let total_weight := (available.map (fun p => p.2)).sum
    some (round2 ((available.map (fun p => p.1 * (p.2 / total_weight))).sum))

/-- Embeds the per-metric body of the scoring loop of
`calculate_fundamental_scores` (lines 257-284): a valuation metric with a
non-null value `≤ 0` is forced to percentile 0.0; otherwise valuation
metrics rank against the positive-valued peers only; other metrics rank
against all peers. -/
def metric_percentile (peers : List FStock) (s : FStock) (cfg : MetricCfg) : Option ℚ :=
  let value := s.get cfg.name
  if isValuationMetric cfg.name then
    if nonposVal value then some 0
    else
      calculate_percentile
        ((filter_valid_valuation peers cfg.name).map (fun p => p.get cfg.name))
        value cfg.higher_is_better
  else calculate_percentile (peers.map (fun p => p.get cfg.name)) value cfg.higher_is_better

/-- Output row of the percentile pipeline. -/
structure ScoredStock where
  symbol : ℕ
  peer_level : PeerLevel
  quality_score : Option ℚ
  growth_score : Option ℚ
  valuation_score : Option ℚ
  health_score : Option ℚ
  fundamental_score : ℚ
  percentiles : List (String × Option ℚ)
deriving DecidableEq

/-- Embeds the per-stock body of `calculate_fundamental_scores`
(lines 244-304): resolve the peer group, compute every metric percentile,
aggregate the four category scores, and blend them 40/30/20/10 with a
neutral 50 substituted for a missing category score, rounding the result to
2 decimals. -/
def scoreStock (df : List FStock) (s : FStock) : ScoredStock :=
  let pg := get_peer_group df s.symbol s.sector s.industry
  let metric_scores := ALL_METRICS.map (fun cfg => (cfg.name, metric_percentile pg.1 s cfg))
  let quality := calculate_category_score metric_scores QUALITY_METRICS
  let growth := calculate_category_score metric_scores GROWTH_METRICS
  let valuation := calculate_category_score metric_scores VALUATION_METRICS
  let health := calculate_category_score metric_scores HEALTH_METRICS
  { symbol := s.symbol
    peer_level := pg.2
    quality_score := quality
    growth_score := growth
    valuation_score := valuation
    health_score := health
    fundamental_score :=
      round2 (quality.getD 50 * 0.40 + growth.getD 50 * 0.30 +
        valuation.getD 50 * 0.20 + health.getD 50 * 0.10)
    percentiles := metric_scores }

/-- Embeds `calculate_fundamental_scores` (lines 219-309): apply caps once,
then score every stock against the capped universe. -/
def calculate_fundamental_scores (df : List FStock) : List ScoredStock :=
  (apply_caps df).map (fun s => scoreStock (apply_caps df) s)

/-! ### Rank assignment (`calculate_fundamental_ranks`, lines 312-337) -/

/-- Input row of the rank assigner: a (nullable) market-cap category label
and the fundamental score. -/
structure RankRow where
  cat : Option ℕ
  score : ℚ
deriving DecidableEq

/-- Descending order on fundamental scores of index-tagged rows. -/
def rankBefore (a b : ℕ × RankRow) : Prop := b.2.score ≤ a.2.score

instance : DecidableRel rankBefore := fun a b =>
  inferInstanceAs (Decidable (b.2.score ≤ a.2.score))

instance : IsTotal (ℕ × RankRow) rankBefore :=
  ⟨fun a b => le_total b.2.score a.2.score⟩

instance : IsTrans (ℕ × RankRow) rankBefore :=
  ⟨fun _ _ _ h1 h2 => le_trans h2 h1⟩

/-- Contract of `sort_values('fundamental_score', ascending=False)`: pandas
guarantees only that the output is a permutation of the input rows sorted by
score descending.  The default `kind='quicksort'` is documented as not
stable, so which permutation is produced on equal scores is unspecified;
the embedding is therefore parameterized by the sorting function, required
only to satisfy this contract. -/
def SortsByScoreDesc (sortFn : List (ℕ × RankRow) → List (ℕ × RankRow)) : Prop :=
  ∀ l, (sortFn l).Perm l ∧ List.Sorted rankBefore (sortFn l)

/-- The rank assigned to one index-tagged row: 0 for a null category,
otherwise 1 plus the row's position in its category's rows sorted by score
descending (`df.loc[category_df.index, 'fundamental_rank'] = range(1, N+1)`),
for the chosen admissible sorting function. -/
def rowRank (sortFn : List (ℕ × RankRow) → List (ℕ × RankRow))
    (idxd : List (ℕ × RankRow)) (p : ℕ × RankRow) : ℕ :=
  match p.2.cat with
  | none => 0
  | some c =>
    (sortFn (idxd.filter (fun q => q.2.cat = some c))).findIdx
      (fun q => q.1 = p.1) + 1

/-- Embeds `calculate_fundamental_ranks` (lines 327-333): rows with a null
category keep rank 0; within each category, rows sorted by score descending
receive ranks 1..N by sorted position.  `sortFn` is any sorting function
satisfying the `sort_values` contract (`SortsByScoreDesc`). -/
def calculate_fundamental_ranks (sortFn : List (ℕ × RankRow) → List (ℕ × RankRow))
    (rows : List RankRow) : List (RankRow × ℕ) :=
  rows.enum.map (fun p => (p.2, rowRank sortFn rows.enum p))

/-- One admissible sorting function: a stable descending sort. -/
def stableSort (l : List (ℕ × RankRow)) : List (ℕ × RankRow) :=
  List.insertionSort rankBefore l

/-- Another admissible sorting function: stable-sorting the reversed input,
which reverses the relative order of rows with equal scores. -/
def revSort (l : List (ℕ × RankRow)) : List (ℕ × RankRow) :=
  List.insertionSort rankBefore l.reverse

/-- Rank-assigner example rows: category 0 scores (10, 30, 30), one
null-category row, category 1 score (5). -/
def c8rows : List RankRow :=
  [⟨some 0, 10⟩, ⟨some 0, 30⟩, ⟨none, 99⟩, ⟨some 0, 30⟩, ⟨some 1, 5⟩]

/-- Two rows of the same category with equal scores. -/
def c8tie : List RankRow := [⟨some 0, 30⟩, ⟨some 0, 30⟩]

/-! ### Hierarchical pipeline (`src/calcompositescore.py`) -/

/-- Grouping level of the hierarchical normalization. -/
inductive Level
  | industry
  | sector
deriving DecidableEq

/-- The group-level weights (lines 223-226). -/
def hierarchical_weight : Level → ℚ
  | Level.industry => 1.0
  | Level.sector => 0.8

/-- Market-cap tiers. -/
inductive Tier
  | largeCap
  | midCap
  | smallCap
  | microCap
deriving DecidableEq

/-- One stock row of the hierarchical pipeline, restricted to a single
metric column `value` (the source loops the same per-metric computation
over its fixed list of 24 technical metrics, each independently). -/
structure TStock where
  symbol : ℕ
  sector : Option ℕ
  industry : Option ℕ
  market_capitalization : Option ℚ
  value : Option ℚ
deriving DecidableEq

/-- A key of the `normalized_scores` dict, `f"{symbol}_{level}_{metric}"`,
modelled structurally for one metric. -/
structure Key where
  symbol : ℕ
  level : Level
deriving DecidableEq

/-- pandas `Series.mean()` over non-null values. -/
def listMean (l : List ℚ) : ℚ := l.sum / (l.length : ℚ)

/-- pandas `Series.std()` squared: the sample variance with `ddof = 1`. -/
def sampleVar (l : List ℚ) : ℚ :=
  ((l.map (fun x => (x - listMean l) ^ 2)).sum) / ((l.length : ℚ) - 1)

/-- Embeds `normalize_peer_group` (lines 230-270) for one metric.  With at
least 3 non-null values and non-zero standard deviation `sq (sampleVar _)`,
every unique symbol of the group gets a score: `(value − mean) / std` times
the group-level weight for a non-null value, 0 for a null value.  Otherwise
no key is emitted at all. -/
def normalize_peer_group (group : List TStock) (level : Level) (sq : ℚ → ℚ) :
    List (Key × ℚ) :=
  let valid_data := group.filterMap (fun s => s.value)
  if 3 ≤ valid_data.length then
    let mean := listMean valid_data
    let std := sq (sampleVar valid_data)
    if std ≠ 0 then
      (uniqueFirst (group.map (fun s => s.symbol))).map (fun sym =>
        match (group.find? (fun s => s.symbol = sym)).bind (fun s => s.value) with
        | some v => (⟨sym, level⟩, (v - mean) / std * hierarchical_weight level)
        | none => (⟨sym, level⟩, 0))
    else []
  else []

/-- Sort key for `sort_values('market_capitalization', ascending=False,
na_position='last')`: descending by value with nulls last, i.e. ascending
on `WithBot ℚ` read right-to-left. -/
def mcapKey (a : TStock) : WithBot ℚ :=
  match a.market_capitalization with
  | some x => (x : WithBot ℚ)
  | none => (⊥ : WithBot ℚ)

/-- The "may come before" relation of the market-cap sort. -/
def mcapBefore (a b : TStock) : Prop := mcapKey b ≤ mcapKey a

instance : DecidableRel mcapBefore := fun a b =>
  inferInstanceAs (Decidable (mcapKey b ≤ mcapKey a))

instance : IsTotal TStock mcapBefore := ⟨fun a b => le_total (mcapKey b) (mcapKey a)⟩

instance : IsTrans TStock mcapBefore := ⟨fun _ _ _ h1 h2 => le_trans h2 h1⟩

/-- The sort of line 207. -/
def sortByMcapDesc (data : List TStock) : List TStock := List.insertionSort mcapBefore data

/-- Tier by rank position (lines 212-215). -/
def tierOfIndex (i : ℕ) : Tier :=
  if i < 100 then Tier.largeCap
  else if i < 250 then Tier.midCap
  else if i < 500 then Tier.smallCap
  else Tier.microCap

/-- Embeds the category assignment (lines 212-218): tier by position in the
sorted order, null for rows with a null market capitalization. -/
def assignCategories (sorted : List TStock) : List (TStock × Option Tier) :=
  sorted.enum.map (fun p =>
    (p.2, if p.2.market_capitalization = none then none else some (tierOfIndex p.1)))

/-- Sort then categorize (lines 207-218). -/
def hierTiers (data : List TStock) : List (TStock × Option Tier) :=
  assignCategories (sortByMcapDesc data)

/-- Embeds the industry loop inside a (tier, sector) group (lines 288-299):
an industry with at least 2 members is normalized at industry level;
otherwise the WHOLE sector group is normalized at sector level. -/
def processSector (sector_peers : List TStock) (sq : ℚ → ℚ) : List (Key × ℚ) :=
  (uniqueFirst (sector_peers.filterMap (fun s => s.industry))).flatMap (fun ind =>
    let industry_peers := sector_peers.filter (fun s => s.industry = some ind)
    if 2 ≤ industry_peers.length then normalize_peer_group industry_peers Level.industry sq
    else normalize_peer_group sector_peers Level.sector sq)

/-- Python `dict` insertion: an existing key keeps its position and gets the
new value; a new key is appended. -/
def dictInsert (d : List (Key × ℚ)) (k : Key) (v : ℚ) : List (Key × ℚ) :=
  if d.any (fun p => p.1 = k) then d.map (fun p => if p.1 = k then (k, v) else p)
  else d ++ [(k, v)]

/-- Embeds `hierarchical_normalize` (lines 202-302) for one metric: sort and
categorize, then for every non-null tier, non-null sector and non-null
industry (in first-appearance order) run the group normalization and merge
the scores into the insertion-ordered dict `normalized_scores`. -/
def hierarchical_normalize (data : List TStock) (sq : ℚ → ℚ) : List (Key × ℚ) :=
  let tiered := hierTiers data
  ((uniqueFirst (tiered.filterMap (fun p => p.2))).flatMap (fun t =>
    let cap_peers := (tiered.filter (fun p => p.2 = some t)).map (fun p => p.1)
    (uniqueFirst (cap_peers.filterMap (fun s => s.sector))).flatMap (fun sec =>
      processSector (cap_peers.filter (fun s => s.sector = some sec)) sq))).foldl
    (fun d kv => dictInsert d kv.1 kv.2) []

/-- Models the per-key assignment loop of `calculate_composite_score`
(lines 148-158) for one metric and one symbol: each dict entry overwrites
the symbol's normalized cell, so the last entry for the symbol wins. -/
def finalNormalized (d : List (Key × ℚ)) (sym : ℕ) : Option ℚ :=
  ((d.filter (fun p => p.1.symbol = sym)).getLast?).map (fun p => p.2)

/-- Models a metric's contribution to the composite score (lines 188-198):
the final normalized value with `NaN` filled by 0, times the metric's fixed
importance weight. -/
def contribution (d : List (Key × ℚ)) (sym : ℕ) (w : ℚ) : ℚ :=
  ((finalNormalized d sym).getD 0) * w

/-! ### Generic lemmas -/

lemma round2_nonneg {x : ℚ} (h : 0 ≤ x) : 0 ≤ round2 x := by
  have h1 : (0 : ℤ) ≤ round (x * 100) := by
    rw [round_eq]
    exact Int.floor_nonneg.mpr (by linarith)
  have h2 : (0 : ℚ) ≤ ((round (x * 100) : ℤ) : ℚ) := by exact_mod_cast h1
  unfold round2
  linarith

lemma round2_le_100 {x : ℚ} (h : x ≤ 100) : round2 x ≤ 100 := by
  have h1 : round (x * 100) ≤ 10000 := by
    rw [round_eq]
    have h0 : (⌊(10000 : ℚ) + 1 / 2⌋ : ℤ) = 10000 := by
      have : ((10000 : ℤ) : ℚ) ≤ (10000 : ℚ) + 1 / 2 := by norm_num
      rw [show (10000 : ℚ) + 1 / 2 = ((10000 : ℤ) : ℚ) + 1 / 2 by norm_num]
      rw [Int.floor_int_add]
      norm_num
    calc ⌊x * 100 + 1 / 2⌋ ≤ ⌊(10000 : ℚ) + 1 / 2⌋ := Int.floor_le_floor (by linarith)
    _ = 10000 := h0
  have h2 : ((round (x * 100) : ℤ) : ℚ) ≤ 10000 := by exact_mod_cast h1
  unfold round2
  linarith

lemma round2_mem_Icc {x : ℚ} (h0 : 0 ≤ x) (h1 : x ≤ 100) :
    0 ≤ round2 x ∧ round2 x ≤ 100 :=
  ⟨round2_nonneg h0, round2_le_100 h1⟩

lemma calculate_percentile_bounds {values : List (Option ℚ)} {value : Option ℚ}
    {hib : Bool} {p : ℚ} (h : calculate_percentile values value hib = some p) :
    0 ≤ p ∧ p ≤ 100 := by
  match value with
  | none => simp [calculate_percentile] at h
  | some v =>
    unfold calculate_percentile at h
    by_cases hlen : (values.filterMap id).length < 2
    · simp only [hlen, if_true, if_pos, Option.some.injEq] at h
      constructor <;> simp [← h] <;> norm_num
    · simp only [hlen, if_neg, if_false, Option.some.injEq] at h
      have hlen0 : 0 < ((values.filterMap id).length : ℚ) := by
        have : 2 ≤ (values.filterMap id).length := by omega
        positivity
      set rank : ℕ := if hib then (values.filterMap id).countP (fun x => decide (x < v))
        else (values.filterMap id).countP (fun x => decide (v < x)) with hrank
      have hr_le : rank ≤ (values.filterMap id).length := by
        rw [hrank]
        split <;> exact List.countP_le_length _
      have hx0 : 0 ≤ (rank : ℚ) / ((values.filterMap id).length : ℚ) * 100 := by positivity
      have hx1 : (rank : ℚ) / ((values.filterMap id).length : ℚ) * 100 ≤ 100 := by
        have hle : (rank : ℚ) ≤ ((values.filterMap id).length : ℚ) := by exact_mod_cast hr_le
        have : (rank : ℚ) / ((values.filterMap id).length : ℚ) ≤ 1 :=
          (div_le_one hlen0).mpr hle
        linarith
      rw [← h]
      exact round2_mem_Icc hx0 hx1

lemma round2_eq (x : ℚ) (z : ℤ) (h1 : (z : ℚ) ≤ x * 100 + 1 / 2)
    (h2 : x * 100 + 1 / 2 < z + 1) : round2 x = (z : ℚ) / 100 := by
  unfold round2
  rw [round_eq, Int.floor_eq_iff.mpr ⟨h1, h2⟩]

lemma sum_map_mul_div (l : List (ℚ × ℚ)) (t : ℚ) :
    (l.map (fun p => p.1 * (p.2 / t))).sum = (l.map (fun p => p.1 * p.2)).sum / t := by
  induction l with
  | nil => simp
  | cons a l ih =>
    simp only [List.map_cons, List.sum_cons, ih, add_div, mul_div_assoc]

/-! ### Claim C3 -/

/-- C3 counterexample.  The claim orders its cases so that a peer group with
fewer than 2 non-null values gives percentile 50.0 even for a stock with a
null raw value, and states that the percentile equals the exact fraction
`worse / total × 100`.  The code checks the null value first (returning
`NaN`) and rounds the fraction to 2 decimals: with a single peer `[10]` and
a null value the result is `none`, not 50, and with peers `[10, 20, 40]`
and value 20 the result is 33.33, not `100/3`. -/
theorem calculate_percentile_counterexample :
    calculate_percentile [some 10] none true ≠ some 50 ∧
    calculate_percentile [some 10] none true = none ∧
    calculate_percentile [some 10, some 20, some 40] (some 20) true = some (3333 / 100) ∧
    calculate_percentile [some 10, some 20, some 40] (some 20) true ≠ some (100 / 3) := by
  have he : calculate_percentile [some 10, some 20, some 40] (some 20) true
      = some (round2 (((1 : ℕ) : ℚ) / ((3 : ℕ) : ℚ) * 100)) := rfl
  have hr : round2 (((1 : ℕ) : ℚ) / ((3 : ℕ) : ℚ) * 100) = ((3333 : ℤ) : ℚ) / 100 :=
    round2_eq _ 3333 (by norm_num) (by norm_num)
  refine ⟨by decide, rfl, ?_, ?_⟩
  · rw [he, hr]; norm_num
  · rw [he, hr]
    intro hcontra
    rw [Option.some.injEq] at hcontra
    norm_num at hcontra

/-- C3 (amended): a stock with a null raw value gets a missing percentile
(`NaN`) even in a small peer group; otherwise a peer group with fewer than
2 non-null values gives the neutral 50.0; otherwise the percentile is the
fraction of strictly worse non-null peer values (strictly less when
higher-is-better, strictly greater when lower-is-better) over the non-null
count, times 100, rounded to 2 decimals; every non-missing percentile lies
in [0, 100]. -/
theorem calculate_percentile_amended (values : List (Option ℚ)) (value : Option ℚ)
    (hib : Bool) :
    calculate_percentile values value hib =
      (match value with
       | none => none
       | some v =>
         if (values.filterMap id).length < 2 then some 50
         else some (round2
           ((((if hib then (values.filterMap id).countP (fun x => decide (x < v))
               else (values.filterMap id).countP (fun x => decide (v < x))) : ℕ) : ℚ) /
             ((values.filterMap id).length : ℚ) * 100))) ∧
    Option.elim (calculate_percentile values value hib) True (fun p => 0 ≤ p ∧ p ≤ 100) := by
  constructor
  · rfl
  · match h : calculate_percentile values value hib with
    | none => exact trivial
    | some p => exact calculate_percentile_bounds h

/-! ### Claim C9 -/

/-- C9: the category score is missing exactly when no metric of the
category has a present (non-null) percentile; otherwise it is the weighted
sum of the present percentiles with the configured weights renormalized to
sum to 1 — equivalently the weighted sum divided by the total collected
weight — rounded to 2 decimals.  The configuration tables are pure values
and are not modified by the computation. -/
theorem category_score_renormalized_weights (scores : List (String × Option ℚ))
    (category_metrics : List MetricCfg) :
    calculate_category_score scores category_metrics =
      (if (category_metrics.filterMap (fun cfg =>
            ((scores.lookup cfg.name).getD none).map (fun s => (s, cfg.weight)))) = []
       then none
       else some (round2
         (((category_metrics.filterMap (fun cfg =>
              ((scores.lookup cfg.name).getD none).map (fun s => (s, cfg.weight)))).map
                (fun p => p.1 * p.2)).sum /
          ((category_metrics.filterMap (fun cfg =>
              ((scores.lookup cfg.name).getD none).map (fun s => (s, cfg.weight)))).map
                (fun p => p.2)).sum))) := by
  unfold calculate_category_score
  by_cases h : (category_metrics.filterMap (fun cfg =>
      ((scores.lookup cfg.name).getD none).map (fun s => (s, cfg.weight)))) = []
  · simp [h]
  · simp only [h, if_neg, if_false]
    rw [sum_map_mul_div]

/-! ### Claim C5 -/

/-- C5: for a metric listed in the valuation table, a stock whose raw value
is non-null and at most 0 is forced to percentile 0.0 regardless of the
peers, and a stock with a strictly positive raw value ranks against exactly
the peers with a strictly positive value of that metric. -/
theorem valuation_rule (peers : List FStock) (s : FStock) (cfg : MetricCfg)
    (hval : isValuationMetric cfg.name = true) :
    (∀ v : ℚ, s.get cfg.name = some v → v ≤ 0 → metric_percentile peers s cfg = some 0) ∧
    (∀ v : ℚ, s.get cfg.name = some v → 0 < v →
      metric_percentile peers s cfg =
        calculate_percentile
          ((peers.filter (fun r => posVal (r.get cfg.name))).map (fun p => p.get cfg.name))
          (some v) cfg.higher_is_better) ∧
    (filter_valid_valuation peers cfg.name =
      peers.filter (fun r => posVal (r.get cfg.name))) ∧
    (∀ p ∈ filter_valid_valuation peers cfg.name,
      ∃ w : ℚ, p.get cfg.name = some w ∧ 0 < w) := by
  have hfv : filter_valid_valuation peers cfg.name =
      peers.filter (fun r => posVal (r.get cfg.name)) := by
    unfold filter_valid_valuation
    rw [hval]
    simp
  refine ⟨?_, ?_, hfv, ?_⟩
  · intro v hv hle
    unfold metric_percentile
    rw [hv, hval]
    simp only [if_true]
    have : nonposVal (some v) = true := by
      unfold nonposVal
      exact decide_eq_true hle
    rw [this]
    simp
  · intro v hv hpos
    unfold metric_percentile
    rw [hv, hval]
    simp only [if_true]
    have : nonposVal (some v) = false := by
      unfold nonposVal
      exact decide_eq_false (not_le.mpr hpos)
    rw [this, hfv]
    simp
  · intro p hp
    rw [hfv] at hp
    have hpos := (List.mem_filter.mp hp).2
    cases hw : p.get cfg.name with
    | none => rw [hw] at hpos; simp [posVal] at hpos
    | some w =>
      rw [hw] at hpos
      unfold posVal at hpos
      exact ⟨w, rfl, of_decide_eq_true hpos⟩

/-- C5 witness: the spec scenario `pe_ratio = -5` forces percentile 0.0. -/
theorem valuation_rule_witness :
    metric_percentile [] (⟨1, none, none, [("pe_ratio", some (-5))]⟩ : FStock)
      ⟨"pe_ratio", 0.07, false, none⟩ = some 0 :=
  (valuation_rule [] ⟨1, none, none, [("pe_ratio", some (-5))]⟩
    ⟨"pe_ratio", 0.07, false, none⟩ (by decide)).1 (-5) (by decide) (by norm_num)

/-! ### Claim C6 -/

/-- C6: the percentile pipeline resolves the peer group as the records
sharing the stock's (non-null) industry when at least `MIN_PEERS = 5` of
them exist, else the records sharing its (non-null) sector when at least 5
exist, else the whole universe; and the per-stock scoring records exactly
the level returned by the resolver. -/
theorem peer_group_fallback (df : List FStock) (symbol : ℕ)
    (sector industry : Option ℕ) :
    (∀ i : ℕ, industry = some i →
      MIN_PEERS ≤ (df.filter (fun r => r.industry = some i)).length →
      get_peer_group df symbol sector industry =
        (df.filter (fun r => r.industry = some i), PeerLevel.industry)) ∧
    (∀ j : ℕ, sector = some j →
      (∀ i : ℕ, industry = some i →
        (df.filter (fun r => r.industry = some i)).length < MIN_PEERS) →
      MIN_PEERS ≤ (df.filter (fun r => r.sector = some j)).length →
      get_peer_group df symbol sector industry =
        (df.filter (fun r => r.sector = some j), PeerLevel.sector)) ∧
    ((∀ i : ℕ, industry = some i →
        (df.filter (fun r => r.industry = some i)).length < MIN_PEERS) →
     (∀ j : ℕ, sector = some j →
        (df.filter (fun r => r.sector = some j)).length < MIN_PEERS) →
     get_peer_group df symbol sector industry = (df, PeerLevel.all)) ∧
    (∀ s : FStock, (scoreStock df s).peer_level =
      (get_peer_group df s.symbol s.sector s.industry).2) := by
  refine ⟨?_, ?_, ?_, fun s => rfl⟩
  · intro i hi hlen
    subst hi
    unfold get_peer_group
    simp only [if_pos hlen]
  · intro j hj hindfail hlen
    subst hj
    have hsec : get_peer_group_sector df (some j) =
        (df.filter (fun r => r.sector = some j), PeerLevel.sector) := by
      unfold get_peer_group_sector
      simp only [if_pos hlen]
    cases industry with
    | none => exact hsec
    | some i =>
      simp only [get_peer_group]
      rw [if_neg (not_le.mpr (hindfail i rfl))]
      exact hsec
  · intro hindfail hsecfail
    have hsec : get_peer_group_sector df sector = (df, PeerLevel.all) := by
      cases sector with
      | none => rfl
      | some j =>
        simp only [get_peer_group_sector]
        rw [if_neg (not_le.mpr (hsecfail j rfl))]
    cases industry with
    | none => exact hsec
    | some i =>
      simp only [get_peer_group]
      rw [if_neg (not_le.mpr (hindfail i rfl))]
      exact hsec

/-- C6 witness: a 1-stock universe falls back past industry and sector to
the whole universe, and the pipeline records level `all`. -/
theorem peer_group_fallback_witness :
    get_peer_group [(⟨1, some 0, some 0, []⟩ : FStock)] 1 (some 0) (some 0) =
      ([(⟨1, some 0, some 0, []⟩ : FStock)], PeerLevel.all) ∧
    (scoreStock [(⟨1, some 0, some 0, []⟩ : FStock)] ⟨1, some 0, some 0, []⟩).peer_level =
      PeerLevel.all := by
  have h := peer_group_fallback [(⟨1, some 0, some 0, []⟩ : FStock)] 1 (some 0) (some 0)
  constructor
  · exact h.2.2.1 (fun i hi => by cases hi; decide) (fun j hj => by cases hj; decide)
  · exact (h.2.2.2 ⟨1, some 0, some 0, []⟩).trans
      ((h.2.2.1 (fun i hi => by cases hi; decide) (fun j hj => by cases hj; decide)) ▸ rfl)

/-! ### Claim C7 -/

lemma hierTiers_length (data : List TStock) :
    (hierTiers data).length = (sortByMcapDesc data).length := by
  simp [hierTiers, assignCategories]

lemma hierTiers_get (data : List TStock) (k : ℕ) (hk : k < (hierTiers data).length) :
    (hierTiers data).get ⟨k, hk⟩ =
      ((sortByMcapDesc data).get ⟨k, hierTiers_length data ▸ hk⟩,
       if ((sortByMcapDesc data).get ⟨k, hierTiers_length data ▸ hk⟩).market_capitalization
          = none
       then none else some (tierOfIndex k)) := by
  simp [hierTiers, assignCategories]

lemma sorted_sortByMcapDesc (data : List TStock) :
    List.Sorted mcapBefore (sortByMcapDesc data) :=
  List.sorted_insertionSort mcapBefore data

/-- C7: in the sorted-and-categorized universe, the tier of the record at
position `i` is determined solely by `i` — `[0,100)` Large, `[100,250)`
Mid, `[250,500)` Small, `[500,∞)` Micro — except that a record with a null
market capitalization gets a null tier; moreover the sort puts nulls last:
every position at or after a null-capitalization record also holds a
null-capitalization record. -/
theorem tier_by_rank_position (data : List TStock) (i : ℕ)
    (h : i < (hierTiers data).length) :
    ((hierTiers data).get ⟨i, h⟩).2 =
      (if ((hierTiers data).get ⟨i, h⟩).1.market_capitalization = none then none
       else some (if i < 100 then Tier.largeCap else if i < 250 then Tier.midCap
         else if i < 500 then Tier.smallCap else Tier.microCap)) ∧
    (∀ j : ℕ, ∀ hj : j < (hierTiers data).length, i ≤ j →
      ((hierTiers data).get ⟨i, h⟩).1.market_capitalization = none →
      ((hierTiers data).get ⟨j, hj⟩).1.market_capitalization = none) := by
  constructor
  · rw [hierTiers_get]
    simp [tierOfIndex]
  · intro j hj hij hnone
    rw [hierTiers_get] at hnone ⊢
    simp only at hnone ⊢
    rcases eq_or_lt_of_le hij with heq | hlt
    · subst heq
      exact hnone
    · have hrel : mcapBefore ((sortByMcapDesc data).get ⟨i, hierTiers_length data ▸ h⟩)
          ((sortByMcapDesc data).get ⟨j, hierTiers_length data ▸ hj⟩) :=
        List.Sorted.rel_get_of_lt (sorted_sortByMcapDesc data) (by exact hlt)
      unfold mcapBefore at hrel
      have hki : mcapKey ((sortByMcapDesc data).get ⟨i, hierTiers_length data ▸ h⟩) = ⊥ := by
        unfold mcapKey
        rw [hnone]
      rw [hki] at hrel
      have hkj := le_bot_iff.mp hrel
      unfold mcapKey at hkj
      cases hmc : ((sortByMcapDesc data).get
          ⟨j, hierTiers_length data ▸ hj⟩).market_capitalization with
      | none => rfl
      | some x =>
        rw [hmc] at hkj
        exact absurd hkj (WithBot.coe_ne_bot)

/-- C7 witness: a 1-record universe with a non-null capitalization lands at
position 0 and gets the Large Cap tier. -/
theorem tier_by_rank_position_witness :
    ((hierTiers [(⟨1, none, none, some 5, none⟩ : TStock)]).get ⟨0, by decide⟩).2 =
      some Tier.largeCap := by
  have h := (tier_by_rank_position [(⟨1, none, none, some 5, none⟩ : TStock)] 0 (by decide)).1
  rw [h]
  decide

/-! ### Claim C2 -/

lemma uniqueFirstAux_eq_self {α : Type} [DecidableEq α] :
    ∀ (l seen : List α), l.Nodup → (∀ a ∈ l, a ∉ seen) → uniqueFirstAux seen l = l := by
  intro l
  induction l with
  | nil => intro seen _ _; rfl
  | cons a l ih =>
    intro seen hnd hdisj
    unfold uniqueFirstAux
    rw [if_neg (hdisj a (List.mem_cons_self a l))]
    congr 1
    apply ih (a :: seen) (List.nodup_cons.mp hnd).2
    intro b hb
    intro hmem
    rcases List.mem_cons.mp hmem with rfl | hseen
    · exact (List.nodup_cons.mp hnd).1 hb
    · exact hdisj b (List.mem_cons_of_mem a hb) hseen

lemma uniqueFirst_eq_self {α : Type} [DecidableEq α] {l : List α} (h : l.Nodup) :
    uniqueFirst l = l :=
  uniqueFirstAux_eq_self l [] h (fun _ _ hmem => (List.not_mem_nil _) hmem)

lemma find?_symbol_of_nodup {group : List TStock}
    (hn : (group.map (fun s => s.symbol)).Nodup) {s : TStock} (hs : s ∈ group) :
    group.find? (fun t => t.symbol = s.symbol) = some s := by
  induction group with
  | nil => cases hs
  | cons a l ih =>
    rcases List.mem_cons.mp hs with rfl | hmem
    · exact List.find?_cons_of_pos _ (by simp)
    · have hne : ¬(a.symbol = s.symbol) := by
        intro hcontra
        apply (List.nodup_cons.mp hn).1
        have hmm : s.symbol ∈ List.map (fun t => t.symbol) l :=
          List.mem_map_of_mem (fun t => t.symbol) hmem
        simpa [hcontra] using hmm
      rw [List.find?_cons_of_neg _ (by simpa using hne)]
      exact ih (List.nodup_cons.mp hn).2 hmem

/-- The group normalization, written as a per-row map: for a group with
distinct symbols, at least 3 non-null values and non-zero standard
deviation, each row gets `(value − mean) / std` times the level weight, or
0 for a null value. -/
lemma normalize_peer_group_eq_map (group : List TStock) (level : Level) (sq : ℚ → ℚ)
    (hn : (group.map (fun s => s.symbol)).Nodup)
    (h3 : 3 ≤ (group.filterMap (fun s => s.value)).length)
    (hstd : sq (sampleVar (group.filterMap (fun s => s.value))) ≠ 0) :
    normalize_peer_group group level sq =
      group.map (fun s =>
        match s.value with
        | some v => ((⟨s.symbol, level⟩ : Key),
            (v - listMean (group.filterMap (fun t => t.value))) /
              sq (sampleVar (group.filterMap (fun t => t.value))) *
              hierarchical_weight level)
        | none => ((⟨s.symbol, level⟩ : Key), 0)) := by
  unfold normalize_peer_group
  rw [if_pos h3, if_pos hstd, uniqueFirst_eq_self hn, List.map_map]
  apply List.map_congr_left
  intro s hs
  simp only [Function.comp_apply]
  rw [find?_symbol_of_nodup hn hs]
  cases hv : s.value with
  | none => simp [Option.bind, hv]
  | some v => simp [Option.bind, hv]

/-- C2: in the hierarchical pipeline, a peer group with distinct symbols, at
least 3 non-null values of the metric and non-zero sample standard
deviation (`sq` applied to the sample variance, constrained to be its
non-negative square root) normalizes a non-null raw value to
`(raw − sample mean) / sample standard deviation` times the group-level
weight — 1.0 for industry-level groups, 0.8 for sector-level groups — and a
null raw value to 0. -/
theorem zscore_normalization (group : List TStock) (level : Level) (sq : ℚ → ℚ)
    (hn : (group.map (fun s => s.symbol)).Nodup)
    (h3 : 3 ≤ (group.filterMap (fun s => s.value)).length)
    (hsq : sq (sampleVar (group.filterMap (fun s => s.value))) ^ 2 =
        sampleVar (group.filterMap (fun s => s.value)) ∧
      0 ≤ sq (sampleVar (group.filterMap (fun s => s.value))))
    (hstd : sq (sampleVar (group.filterMap (fun s => s.value))) ≠ 0) :
    normalize_peer_group group level sq =
      group.map (fun s =>
        match s.value with
        | some v => ((⟨s.symbol, level⟩ : Key),
            (v - listMean (group.filterMap (fun t => t.value))) /
              sq (sampleVar (group.filterMap (fun t => t.value))) *
              hierarchical_weight level)
        | none => ((⟨s.symbol, level⟩ : Key), 0)) ∧
    hierarchical_weight Level.industry = 1 ∧ hierarchical_weight Level.sector = 8 / 10 := by
  refine ⟨normalize_peer_group_eq_map group level sq hn h3 hstd, ?_, ?_⟩
  · norm_num [hierarchical_weight]
  · norm_num [hierarchical_weight]

/-- The peer group of the spec scenario for the z-score normalization. -/
def c2group : List TStock :=
  [⟨1, none, none, none, some 30⟩, ⟨2, none, none, none, some 50⟩,
    ⟨3, none, none, none, some 70⟩]

/-- The square-root function of the spec scenario, correct at the sample
variance 400 that the scenario uses. -/
def c2sq : ℚ → ℚ := fun q => if q = 400 then 20 else 0

/-- C2 witness: the spec scenario — three industry peers with metric values
30, 50, 70 have sample mean 50 and sample standard deviation 20, and
normalize to −1.0, 0, 1.0 with group weight 1.0. -/
theorem zscore_normalization_witness :
    normalize_peer_group c2group Level.industry c2sq =
      [((⟨1, Level.industry⟩ : Key), -1), ((⟨2, Level.industry⟩ : Key), 0),
        ((⟨3, Level.industry⟩ : Key), 1)] := by
  have hfm : c2group.filterMap (fun s => s.value) = [30, 50, 70] := rfl
  have hm : listMean (c2group.filterMap (fun s => s.value)) = 50 := by
    rw [hfm]
    norm_num [listMean, List.sum_cons, List.sum_nil, List.length_cons]
  have hv : sampleVar (c2group.filterMap (fun s => s.value)) = 400 := by
    rw [sampleVar, hm, hfm]
    norm_num [List.sum_cons, List.sum_nil, List.length_cons]
  have h := zscore_normalization c2group Level.industry c2sq
    (by decide) (by decide)
    ⟨by rw [hv]; norm_num [c2sq], by rw [hv]; norm_num [c2sq]⟩
    (by rw [hv]; norm_num [c2sq])
  rw [h.1, hv, hm]
  norm_num [c2group, c2sq, hierarchical_weight]

/-! ### Claim C4 -/

lemma sampleVar_eq_zero_of_const {l : List ℚ} (hall : ∀ x ∈ l, ∀ y ∈ l, x = y) :
    sampleVar l = 0 := by
  unfold sampleVar
  have hzero : (l.map (fun x => (x - listMean l) ^ 2)).sum = 0 := by
    apply List.sum_eq_zero
    intro z hz
    obtain ⟨x, hx, rfl⟩ := List.mem_map.mp hz
    have hmean : listMean l = x := by
      unfold listMean
      have hsum : l.sum = l.length • x :=
        List.sum_eq_card_nsmul l x (fun y hy => hall y hy x hx)
      have hlen0 : 0 < l.length := List.length_pos.mpr (List.ne_nil_of_mem hx)
      have hlen : (l.length : ℚ) ≠ 0 := by exact_mod_cast hlen0.ne'
      rw [hsum, nsmul_eq_mul, mul_div_cancel_left₀ _ hlen]
    rw [hmean]
    simp
  rw [hzero, zero_div]

/-- C4 (amended): a peer group whose at least 3 non-null metric values are
all equal has sample variance 0, hence standard deviation 0, so the group
normalization emits no scores at all for the metric, and the metric's
contribution computed from the group's (empty) emission is 0 for every
symbol and weight.  (As the counterexample shows, a member can still
receive a non-zero sector-level score for the metric from the fallback
processing of a small sibling industry, so the claim does not hold for the
member's final contribution to the composite.) -/
theorem zero_variance_emits_nothing (group : List TStock) (level : Level) (sq : ℚ → ℚ)
    (h3 : 3 ≤ (group.filterMap (fun s => s.value)).length)
    (hall : ∀ x ∈ group.filterMap (fun s => s.value),
      ∀ y ∈ group.filterMap (fun s => s.value), x = y)
    (hsq : sq (sampleVar (group.filterMap (fun s => s.value))) ^ 2 =
      sampleVar (group.filterMap (fun s => s.value))) :
    normalize_peer_group group level sq = [] ∧
    ∀ sym : ℕ, ∀ w : ℚ,
      contribution (normalize_peer_group group level sq) sym w = 0 := by
  have hvar := sampleVar_eq_zero_of_const hall
  have hstd : sq (sampleVar (group.filterMap (fun s => s.value))) = 0 := by
    rw [hvar] at hsq ⊢
    exact (pow_eq_zero_iff (by norm_num : (2 : ℕ) ≠ 0)).mp hsq
  have hempty : normalize_peer_group group level sq = [] := by
    simp [normalize_peer_group, hstd, h3]
  refine ⟨hempty, fun sym w => ?_⟩
  rw [hempty]
  simp [contribution, finalNormalized]

/-- C4 witness for the amended claim: a constant group emits nothing and
contributes 0. -/
theorem zero_variance_emits_nothing_witness :
    normalize_peer_group [(⟨1, none, none, none, some 7⟩ : TStock),
      ⟨2, none, none, none, some 7⟩, ⟨3, none, none, none, some 7⟩] Level.industry
      (fun q => q) = [] ∧
    contribution (normalize_peer_group [(⟨1, none, none, none, some 7⟩ : TStock),
      ⟨2, none, none, none, some 7⟩, ⟨3, none, none, none, some 7⟩] Level.industry
      (fun q => q)) 5 3 = 0 := by
  have hsq : (fun q => q) (sampleVar (([(⟨1, none, none, none, some 7⟩ : TStock),
      ⟨2, none, none, none, some 7⟩, ⟨3, none, none, none, some 7⟩]).filterMap
        (fun s => s.value))) ^ 2 =
      sampleVar (([(⟨1, none, none, none, some 7⟩ : TStock),
      ⟨2, none, none, none, some 7⟩, ⟨3, none, none, none, some 7⟩]).filterMap
        (fun s => s.value)) := by
    have hv := @sampleVar_eq_zero_of_const
      (([(⟨1, none, none, none, some 7⟩ : TStock),
        ⟨2, none, none, none, some 7⟩, ⟨3, none, none, none, some 7⟩]).filterMap
          (fun s => s.value)) (by decide)
    rw [hv]
    norm_num
  have h := zero_variance_emits_nothing [(⟨1, none, none, none, some 7⟩ : TStock),
      ⟨2, none, none, none, some 7⟩, ⟨3, none, none, none, some 7⟩] Level.industry
    (fun q => q) (by decide) (by decide) hsq
  exact ⟨h.1, h.2 5 3⟩

/-- The four stocks of the C4 counterexample: one market-cap tier, one
sector, industry 0 = three stocks with equal metric value 50 (zero
variance), industry 1 = a single stock with value 54. -/
def c4a : TStock := ⟨1, some 0, some 0, some 100, some 50⟩

def c4b : TStock := ⟨2, some 0, some 0, some 100, some 50⟩

def c4c : TStock := ⟨3, some 0, some 0, some 100, some 50⟩

def c4d : TStock := ⟨4, some 0, some 1, some 100, some 54⟩

def c4data : List TStock := [c4a, c4b, c4c, c4d]

/-- The square-root function of the C4 counterexample, correct at the two
sample variances 0 and 4 that the run uses. -/
def c4sq : ℚ → ℚ := fun q => if q = 4 then 2 else 0

/-- C4 counterexample.  The industry peer group of stock 1 has the three
non-null values [50, 50, 50] — at least 3 values, zero sample variance —
yet stock 1's contribution of the metric to the composite is −2/5 ≠ 0: the
1-member sibling industry of stock 4 triggers a sector-level fallback
normalization over the whole sector, which emits a non-zero 0.8-weighted
score for stock 1. -/
theorem zero_variance_contribution_counterexample :
    ((c4data.filter (fun s => s.industry = some 0)).filterMap (fun s => s.value))
      = [50, 50, 50] ∧
    3 ≤ ((c4data.filter (fun s => s.industry = some 0)).filterMap
      (fun s => s.value)).length ∧
    sampleVar ((c4data.filter (fun s => s.industry = some 0)).filterMap
      (fun s => s.value)) = 0 ∧
    c4a ∈ c4data.filter (fun s => s.industry = some 0) ∧
    c4a.symbol = 1 ∧
    contribution (hierarchical_normalize c4data c4sq) 1 1 = -2/5 ∧
    (-2/5 : ℚ) ≠ 0 := by
  have hv0 : sampleVar ((c4data.filter (fun s => s.industry = some 0)).filterMap
      (fun s => s.value)) = 0 := sampleVar_eq_zero_of_const (by decide)
  refine ⟨by decide, by decide, hv0, by decide, rfl, ?_, by norm_num⟩
  have hvind : sampleVar (([c4a, c4b, c4c] : List TStock).filterMap (fun s => s.value))
      = 0 := sampleVar_eq_zero_of_const (by decide)
  have hb : normalize_peer_group [c4a, c4b, c4c] Level.industry c4sq = [] := by
    simp only [normalize_peer_group, hvind]
    norm_num [c4sq]
  have hm4 : listMean (c4data.filterMap (fun s => s.value)) = 51 := by
    have hfm : c4data.filterMap (fun s => s.value) = [50, 50, 50, 54] := rfl
    rw [hfm]
    norm_num [listMean, List.sum_cons, List.sum_nil, List.length_cons]
  have hv4 : sampleVar (c4data.filterMap (fun s => s.value)) = 4 := by
    have hfm : c4data.filterMap (fun s => s.value) = [50, 50, 50, 54] := rfl
    rw [sampleVar, hm4, hfm]
    norm_num [List.sum_cons, List.sum_nil, List.map_cons, List.map_nil, List.length_cons]
  have hc : normalize_peer_group c4data Level.sector c4sq =
      [((⟨1, Level.sector⟩ : Key), -2/5), ((⟨2, Level.sector⟩ : Key), -2/5),
        ((⟨3, Level.sector⟩ : Key), -2/5), ((⟨4, Level.sector⟩ : Key), 6/5)] := by
    have h := normalize_peer_group_eq_map c4data Level.sector c4sq (by decide) (by decide)
      (by rw [hv4]; norm_num [c4sq])
    rw [h, hv4, hm4]
    norm_num [c4data, c4a, c4b, c4c, c4d, c4sq, hierarchical_weight]
  have hhn : hierarchical_normalize c4data c4sq =
      ((processSector c4data c4sq ++ []) ++ []).foldl
        (fun (d : List (Key × ℚ)) (kv : Key × ℚ) => dictInsert d kv.1 kv.2) [] := rfl
  have hps : processSector c4data c4sq =
      normalize_peer_group [c4a, c4b, c4c] Level.industry c4sq ++
        (normalize_peer_group c4data Level.sector c4sq ++ []) := rfl
  rw [hhn, hps, hb, hc]
  norm_num [dictInsert, contribution, finalNormalized, List.foldl_cons, List.foldl_nil]

/-! ### Claim C10 -/

/-- The four stocks of the C10 demonstration: one tier and one sector;
industry 0 holds stocks 1, 2, 3 (values 38, 50, 62), industry 1 holds only
stock 4 (value 54).  All market capitalizations are equal so that the two
row orders below survive the stable sort unchanged. -/
def c10x1 : TStock := ⟨1, some 0, some 0, some 100, some 38⟩

def c10x2 : TStock := ⟨2, some 0, some 0, some 100, some 50⟩

def c10x3 : TStock := ⟨3, some 0, some 0, some 100, some 62⟩

def c10y : TStock := ⟨4, some 0, some 1, some 100, some 54⟩

def c10data1 : List TStock := [c10x1, c10x2, c10x3, c10y]

def c10data2 : List TStock := [c10y, c10x1, c10x2, c10x3]

/-- The square-root function of the C10 demonstration, correct at the two
sample variances 144 (industry group) and 100 (sector group) that the runs
use. -/
def c10sq : ℚ → ℚ := fun q => if q = 144 then 12 else if q = 100 then 10 else 0

/-- Merging score lists with pairwise-distinct keys into the dict just
appends them. -/
lemma foldl_dictInsert_of_disjoint :
    ∀ (l d : List (Key × ℚ)), (l.map Prod.fst).Nodup →
      (∀ k ∈ l.map Prod.fst, ∀ p ∈ d, p.1 ≠ k) →
      l.foldl (fun (d : List (Key × ℚ)) (kv : Key × ℚ) => dictInsert d kv.1 kv.2) d
        = d ++ l := by
  intro l
  induction l with
  | nil => intro d _ _; simp
  | cons a l ih =>
    intro d hnd hdisj
    have hnew : d.any (fun p => p.1 = a.1) = false := by
      rw [List.any_eq_false]
      intro p hp
      simpa using hdisj a.1 (by simp) p hp
    have hstep : dictInsert d a.1 a.2 = d ++ [a] := by
      unfold dictInsert
      rw [hnew]
      simp
    simp only [List.foldl_cons]
    have hrec := ih (dictInsert d a.1 a.2) (List.nodup_cons.mp (by simpa using hnd)).2 ?_
    · rw [hrec, hstep, List.append_assoc]
      simp
    · intro k hk p hp
      rw [hstep] at hp
      rcases List.mem_append.mp hp with hmem | hmem
      · exact hdisj k (by simp [hk]) p hmem
      · have hpa : p = a := by simpa using hmem
        subst hpa
        intro hcontra
        exact (List.nodup_cons.mp (by simpa using hnd)).1 (hcontra ▸ hk)

lemma c10_ind_mean : listMean (([c10x1, c10x2, c10x3] : List TStock).filterMap
    (fun s => s.value)) = 50 := by
  have hfm : (([c10x1, c10x2, c10x3] : List TStock).filterMap (fun s => s.value))
      = [38, 50, 62] := rfl
  rw [hfm]
  norm_num [listMean, List.sum_cons, List.sum_nil, List.length_cons]

lemma c10_ind_var : sampleVar (([c10x1, c10x2, c10x3] : List TStock).filterMap
    (fun s => s.value)) = 144 := by
  have hfm : (([c10x1, c10x2, c10x3] : List TStock).filterMap (fun s => s.value))
      = [38, 50, 62] := rfl
  rw [sampleVar, c10_ind_mean, hfm]
  norm_num [List.sum_cons, List.sum_nil, List.map_cons, List.map_nil, List.length_cons]

lemma c10_mean1 : listMean (c10data1.filterMap (fun s => s.value)) = 51 := by
  have hfm : c10data1.filterMap (fun s => s.value) = [38, 50, 62, 54] := rfl
  rw [hfm]
  norm_num [listMean, List.sum_cons, List.sum_nil, List.length_cons]

lemma c10_var1 : sampleVar (c10data1.filterMap (fun s => s.value)) = 100 := by
  have hfm : c10data1.filterMap (fun s => s.value) = [38, 50, 62, 54] := rfl
  rw [sampleVar, c10_mean1, hfm]
  norm_num [List.sum_cons, List.sum_nil, List.map_cons, List.map_nil, List.length_cons]

lemma c10_mean2 : listMean (c10data2.filterMap (fun s => s.value)) = 51 := by
  have hfm : c10data2.filterMap (fun s => s.value) = [54, 38, 50, 62] := rfl
  rw [hfm]
  norm_num [listMean, List.sum_cons, List.sum_nil, List.length_cons]

lemma c10_var2 : sampleVar (c10data2.filterMap (fun s => s.value)) = 100 := by
  have hfm : c10data2.filterMap (fun s => s.value) = [54, 38, 50, 62] := rfl
  rw [sampleVar, c10_mean2, hfm]
  norm_num [List.sum_cons, List.sum_nil, List.map_cons, List.map_nil, List.length_cons]

lemma c10_ind_scores : normalize_peer_group [c10x1, c10x2, c10x3] Level.industry c10sq =
    [((⟨1, Level.industry⟩ : Key), -1), ((⟨2, Level.industry⟩ : Key), 0),
      ((⟨3, Level.industry⟩ : Key), 1)] := by
  have h := normalize_peer_group_eq_map [c10x1, c10x2, c10x3] Level.industry c10sq
    (by decide) (by decide) (by rw [c10_ind_var]; norm_num [c10sq])
  rw [h, c10_ind_var, c10_ind_mean]
  norm_num [c10x1, c10x2, c10x3, c10sq, hierarchical_weight]

lemma c10_sec_scores1 : normalize_peer_group c10data1 Level.sector c10sq =
    [((⟨1, Level.sector⟩ : Key), -26/25), ((⟨2, Level.sector⟩ : Key), -2/25),
      ((⟨3, Level.sector⟩ : Key), 22/25), ((⟨4, Level.sector⟩ : Key), 6/25)] := by
  have h := normalize_peer_group_eq_map c10data1 Level.sector c10sq
    (by decide) (by decide) (by rw [c10_var1]; norm_num [c10sq])
  rw [h, c10_var1, c10_mean1]
  norm_num [c10data1, c10x1, c10x2, c10x3, c10y, c10sq, hierarchical_weight]

lemma c10_sec_scores2 : normalize_peer_group c10data2 Level.sector c10sq =
    [((⟨4, Level.sector⟩ : Key), 6/25), ((⟨1, Level.sector⟩ : Key), -26/25),
      ((⟨2, Level.sector⟩ : Key), -2/25), ((⟨3, Level.sector⟩ : Key), 22/25)] := by
  have h := normalize_peer_group_eq_map c10data2 Level.sector c10sq
    (by decide) (by decide) (by rw [c10_var2]; norm_num [c10sq])
  rw [h, c10_var2, c10_mean2]
  norm_num [c10data2, c10x1, c10x2, c10x3, c10y, c10sq, hierarchical_weight]

/-- C10: first, whenever an industry of a (tier, sector) group has fewer
than 2 members, the fallback normalizes the WHOLE sector group at sector
level, emitting a 0.8-weighted sector-level score for every member of the
sector, not only for the members of the under-populated industry; second,
on four concrete stocks whose industry 0 has 3 members and industry 1 has
1 member, the final normalized value used for stock 1 — a member of the
well-populated industry — depends on the processing order of the
industries, i.e. on the row order of the data: one row order yields the
sector-level value −26/25, the permuted row order yields the
industry-level value −1. -/
theorem sector_fallback_overwrite :
    (∀ (sector_peers : List TStock) (sq : ℚ → ℚ) (ind : ℕ),
      (sector_peers.map (fun s => s.symbol)).Nodup →
      ind ∈ uniqueFirst (sector_peers.filterMap (fun s => s.industry)) →
      (sector_peers.filter (fun s => s.industry = some ind)).length < 2 →
      3 ≤ (sector_peers.filterMap (fun s => s.value)).length →
      sq (sampleVar (sector_peers.filterMap (fun s => s.value))) ≠ 0 →
      ∀ m ∈ sector_peers,
        ((⟨m.symbol, Level.sector⟩ : Key),
          (match m.value with
           | some v => (v - listMean (sector_peers.filterMap (fun t => t.value))) /
               sq (sampleVar (sector_peers.filterMap (fun t => t.value))) *
               hierarchical_weight Level.sector
           | none => 0)) ∈ processSector sector_peers sq) ∧
    c10data1.Perm c10data2 ∧
    finalNormalized (hierarchical_normalize c10data1 c10sq) 1 = some (-26/25) ∧
    finalNormalized (hierarchical_normalize c10data2 c10sq) 1 = some (-1) := by
  refine ⟨?_, ?_, ?_, ?_⟩
  · intro sector_peers sq ind hn hind hsmall h3 hstd m hm
    have hmap := normalize_peer_group_eq_map sector_peers Level.sector sq hn h3 hstd
    unfold processSector
    apply List.mem_flatMap.mpr
    refine ⟨ind, hind, ?_⟩
    rw [if_neg (by omega)]
    rw [hmap]
    refine List.mem_map.mpr ⟨m, hm, ?_⟩
    cases m.value <;> rfl
  · show ([c10x1, c10x2, c10x3] ++ [c10y]).Perm [c10y, c10x1, c10x2, c10x3]
    exact List.perm_append_singleton c10y [c10x1, c10x2, c10x3]
  · have hhn : hierarchical_normalize c10data1 c10sq =
        ((processSector c10data1 c10sq ++ []) ++ []).foldl
          (fun (d : List (Key × ℚ)) (kv : Key × ℚ) => dictInsert d kv.1 kv.2) [] := rfl
    have hps : processSector c10data1 c10sq =
        normalize_peer_group [c10x1, c10x2, c10x3] Level.industry c10sq ++
          (normalize_peer_group c10data1 Level.sector c10sq ++ []) := rfl
    rw [hhn, hps, c10_ind_scores, c10_sec_scores1]
    simp only [List.cons_append, List.nil_append, List.append_nil]
    rw [foldl_dictInsert_of_disjoint _ [] (by decide) (by simp)]
    simp [finalNormalized]
  · have hhn : hierarchical_normalize c10data2 c10sq =
        ((processSector c10data2 c10sq ++ []) ++ []).foldl
          (fun (d : List (Key × ℚ)) (kv : Key × ℚ) => dictInsert d kv.1 kv.2) [] := rfl
    have hps : processSector c10data2 c10sq =
        normalize_peer_group c10data2 Level.sector c10sq ++
          (normalize_peer_group [c10x1, c10x2, c10x3] Level.industry c10sq ++ []) := rfl
    rw [hhn, hps, c10_ind_scores, c10_sec_scores2]
    simp only [List.cons_append, List.nil_append, List.append_nil]
    rw [foldl_dictInsert_of_disjoint _ [] (by decide) (by simp)]
    simp [finalNormalized]

/-- C10 witness: instantiating the general part on the concrete sector
group — the 1-member industry 1 makes stock 1 (whose own industry has 3
members) receive the sector-level key with the 0.8-weighted value −26/25. -/
theorem sector_fallback_overwrite_witness :
    ((⟨1, Level.sector⟩ : Key), (-26/25 : ℚ)) ∈ processSector c10data1 c10sq := by
  have h := sector_fallback_overwrite.1 c10data1 c10sq 1 (by decide) (by decide)
    (by decide) (by decide) (by rw [c10_var1]; norm_num [c10sq])
  have hmem := h c10x1 (by decide)
  have hval : (match c10x1.value with
      | some v => (v - listMean (c10data1.filterMap (fun t => t.value))) /
          c10sq (sampleVar (c10data1.filterMap (fun t => t.value))) *
          hierarchical_weight Level.sector
      | none => 0) = (-26/25 : ℚ) := by
    show ((38 : ℚ) - listMean (c10data1.filterMap (fun t => t.value))) /
        c10sq (sampleVar (c10data1.filterMap (fun t => t.value))) *
        hierarchical_weight Level.sector = (-26/25 : ℚ)
    rw [c10_mean1, c10_var1]
    norm_num [c10sq, hierarchical_weight]
  rw [hval] at hmem
  exact hmem

/-! ### Claim C1 -/

lemma metric_percentile_bounds {peers : List FStock} {s : FStock} {cfg : MetricCfg}
    {p : ℚ} (h : metric_percentile peers s cfg = some p) : 0 ≤ p ∧ p ≤ 100 := by
  unfold metric_percentile at h
  by_cases hval : isValuationMetric cfg.name = true
  · rw [if_pos hval] at h
    by_cases hnp : nonposVal (s.get cfg.name) = true
    · rw [if_pos hnp] at h
      rw [Option.some.injEq] at h
      constructor <;> rw [← h] <;> norm_num
    · rw [if_neg hnp] at h
      exact calculate_percentile_bounds h
  · rw [if_neg hval] at h
    exact calculate_percentile_bounds h

lemma lookup_mem {α β : Type} [BEq α] [LawfulBEq α] {l : List (α × β)} {k : α} {v : β}
    (h : l.lookup k = some v) : (k, v) ∈ l := by
  induction l with
  | nil => simp [List.lookup] at h
  | cons a l ih =>
    rw [List.lookup] at h
    by_cases he : (k == a.1) = true
    · rw [he] at h
      rw [Option.some.injEq] at h
      have hk : k = a.1 := by simpa using he
      subst hk
      subst h
      simp
    · rw [Bool.not_eq_true] at he
      rw [he] at h
      exact List.mem_cons_of_mem a (ih h)

lemma sum_pairs_nonneg (l : List (ℚ × ℚ)) (h : ∀ q ∈ l, 0 ≤ q.1 ∧ 0 ≤ q.2) :
    0 ≤ (l.map (fun p => p.1 * p.2)).sum := by
  induction l with
  | nil => simp
  | cons a l ih =>
    simp only [List.map_cons, List.sum_cons]
    have ha := h a (by simp)
    have hl := ih (fun q hq => h q (by simp [hq]))
    have hm : 0 ≤ a.1 * a.2 := mul_nonneg ha.1 ha.2
    linarith

lemma sum_pairs_le (l : List (ℚ × ℚ)) (h : ∀ q ∈ l, q.1 ≤ 100 ∧ 0 ≤ q.2) :
    (l.map (fun p => p.1 * p.2)).sum ≤ 100 * (l.map (fun p => p.2)).sum := by
  induction l with
  | nil => simp
  | cons a l ih =>
    simp only [List.map_cons, List.sum_cons]
    have ha := h a (by simp)
    have hl := ih (fun q hq => h q (by simp [hq]))
    have hm : a.1 * a.2 ≤ 100 * a.2 := mul_le_mul_of_nonneg_right ha.1 ha.2
    linarith

lemma sum_snd_nonneg (l : List (ℚ × ℚ)) (h : ∀ q ∈ l, 0 ≤ q.2) :
    0 ≤ (l.map (fun p => p.2)).sum := by
  induction l with
  | nil => simp
  | cons a l ih =>
    simp only [List.map_cons, List.sum_cons]
    have ha := h a (by simp)
    have hl := ih (fun q hq => h q (by simp [hq]))
    linarith

lemma calculate_category_score_bounds {scores : List (String × Option ℚ)}
    {category_metrics : List MetricCfg} {c : ℚ}
    (hs : ∀ n ov, (n, ov) ∈ scores → ∀ x, ov = some x → 0 ≤ x ∧ x ≤ 100)
    (hw : ∀ cfg ∈ category_metrics, 0 ≤ cfg.weight)
    (h : calculate_category_score scores category_metrics = some c) :
    0 ≤ c ∧ c ≤ 100 := by
  unfold calculate_category_score at h
  by_cases hav : (category_metrics.filterMap (fun cfg =>
      ((scores.lookup cfg.name).getD none).map (fun s => (s, cfg.weight)))) = []
  · rw [if_pos hav] at h
    exact absurd h (by simp)
  · rw [if_neg hav] at h
    simp only [] at h
    rw [sum_map_mul_div] at h
    rw [Option.some.injEq] at h
    have hprops : ∀ q ∈ (category_metrics.filterMap (fun cfg =>
        ((scores.lookup cfg.name).getD none).map (fun s => (s, cfg.weight)))),
        (0 ≤ q.1 ∧ q.1 ≤ 100) ∧ 0 ≤ q.2 := by
      intro q hq
      obtain ⟨cfg, hcfg, heq⟩ := List.mem_filterMap.mp hq
      obtain ⟨x, hx, hxq⟩ := Option.map_eq_some'.mp heq
      subst hxq
      refine ⟨?_, hw cfg hcfg⟩
      cases hlk : scores.lookup cfg.name with
      | none => rw [hlk] at hx; simp at hx
      | some ov =>
        rw [hlk] at hx
        simp only [Option.getD_some] at hx
        exact hs cfg.name ov (lookup_mem hlk) x hx
    have hnum0 : 0 ≤ ((category_metrics.filterMap (fun cfg =>
        ((scores.lookup cfg.name).getD none).map (fun s => (s, cfg.weight)))).map
          (fun p => p.1 * p.2)).sum :=
      sum_pairs_nonneg _ (fun q hq => ⟨(hprops q hq).1.1, (hprops q hq).2⟩)
    have hnum1 := sum_pairs_le _ (fun q hq => ⟨(hprops q hq).1.2, (hprops q hq).2⟩)
    have ht0 := sum_snd_nonneg _ (fun q hq => (hprops q hq).2)
    rw [← h]
    rcases eq_or_lt_of_le ht0 with heq | hpos
    · rw [← heq, div_zero]
      exact round2_mem_Icc le_rfl (by norm_num)
    · have hd0 : 0 ≤ ((category_metrics.filterMap (fun cfg =>
          ((scores.lookup cfg.name).getD none).map (fun s => (s, cfg.weight)))).map
            (fun p => p.1 * p.2)).sum /
          ((category_metrics.filterMap (fun cfg =>
          ((scores.lookup cfg.name).getD none).map (fun s => (s, cfg.weight)))).map
            (fun p => p.2)).sum := div_nonneg hnum0 (le_of_lt hpos)
      have hd1 : ((category_metrics.filterMap (fun cfg =>
          ((scores.lookup cfg.name).getD none).map (fun s => (s, cfg.weight)))).map
            (fun p => p.1 * p.2)).sum /
          ((category_metrics.filterMap (fun cfg =>
          ((scores.lookup cfg.name).getD none).map (fun s => (s, cfg.weight)))).map
            (fun p => p.2)).sum ≤ 100 := by
        rw [div_le_iff hpos]
        linarith
      exact round2_mem_Icc hd0 hd1

lemma getD50_bounds {o : Option ℚ} (h : ∀ x, o = some x → 0 ≤ x ∧ x ≤ 100) :
    0 ≤ o.getD 50 ∧ o.getD 50 ≤ 100 := by
  cases o with
  | none => norm_num
  | some x => simpa using h x rfl

/-- C1: every output row of the percentile pipeline has
`fundamental_score = round2(quality*0.40 + growth*0.30 + valuation*0.20 +
health*0.10)` where each missing category score is replaced by the neutral
50, and the result always lies in [0, 100]. -/
theorem fundamental_composite (df : List FStock) (r : ScoredStock)
    (hr : r ∈ calculate_fundamental_scores df) :
    r.fundamental_score =
      round2 ((r.quality_score.getD 50) * 0.40 + (r.growth_score.getD 50) * 0.30 +
        (r.valuation_score.getD 50) * 0.20 + (r.health_score.getD 50) * 0.10) ∧
    0 ≤ r.fundamental_score ∧ r.fundamental_score ≤ 100 := by
  unfold calculate_fundamental_scores at hr
  obtain ⟨s, hsmem, rfl⟩ := List.mem_map.mp hr
  have hq : (scoreStock (apply_caps df) s).quality_score =
      calculate_category_score (ALL_METRICS.map (fun cfg => (cfg.name,
        metric_percentile (get_peer_group (apply_caps df) s.symbol s.sector s.industry).1
          s cfg))) QUALITY_METRICS := rfl
  have hg : (scoreStock (apply_caps df) s).growth_score =
      calculate_category_score (ALL_METRICS.map (fun cfg => (cfg.name,
        metric_percentile (get_peer_group (apply_caps df) s.symbol s.sector s.industry).1
          s cfg))) GROWTH_METRICS := rfl
  have hv : (scoreStock (apply_caps df) s).valuation_score =
      calculate_category_score (ALL_METRICS.map (fun cfg => (cfg.name,
        metric_percentile (get_peer_group (apply_caps df) s.symbol s.sector s.industry).1
          s cfg))) VALUATION_METRICS := rfl
  have hh : (scoreStock (apply_caps df) s).health_score =
      calculate_category_score (ALL_METRICS.map (fun cfg => (cfg.name,
        metric_percentile (get_peer_group (apply_caps df) s.symbol s.sector s.industry).1
          s cfg))) HEALTH_METRICS := rfl
  have hf : (scoreStock (apply_caps df) s).fundamental_score =
      round2 (((scoreStock (apply_caps df) s).quality_score).getD 50 * 0.40 +
        ((scoreStock (apply_caps df) s).growth_score).getD 50 * 0.30 +
        ((scoreStock (apply_caps df) s).valuation_score).getD 50 * 0.20 +
        ((scoreStock (apply_caps df) s).health_score).getD 50 * 0.10) := rfl
  have hsb : ∀ n ov, (n, ov) ∈ ALL_METRICS.map (fun cfg => (cfg.name,
      metric_percentile (get_peer_group (apply_caps df) s.symbol s.sector s.industry).1
        s cfg)) → ∀ x, ov = some x → 0 ≤ x ∧ x ≤ 100 := by
    intro n ov hmem x hx
    obtain ⟨cfg, _, heq⟩ := List.mem_map.mp hmem
    injection heq with h1 h2
    exact metric_percentile_bounds (h2.trans hx)
  have hbq : ∀ x, (scoreStock (apply_caps df) s).quality_score = some x →
      0 ≤ x ∧ x ≤ 100 := by
    intro x hx
    rw [hq] at hx
    exact calculate_category_score_bounds hsb
      (by intro cfg hcfg; fin_cases hcfg <;> norm_num) hx
  have hbg : ∀ x, (scoreStock (apply_caps df) s).growth_score = some x →
      0 ≤ x ∧ x ≤ 100 := by
    intro x hx
    rw [hg] at hx
    exact calculate_category_score_bounds hsb
      (by intro cfg hcfg; fin_cases hcfg <;> norm_num) hx
  have hbv : ∀ x, (scoreStock (apply_caps df) s).valuation_score = some x →
      0 ≤ x ∧ x ≤ 100 := by
    intro x hx
    rw [hv] at hx
    exact calculate_category_score_bounds hsb
      (by intro cfg hcfg; fin_cases hcfg <;> norm_num) hx
  have hbh : ∀ x, (scoreStock (apply_caps df) s).health_score = some x →
      0 ≤ x ∧ x ≤ 100 := by
    intro x hx
    rw [hh] at hx
    exact calculate_category_score_bounds hsb
      (by intro cfg hcfg; fin_cases hcfg <;> norm_num) hx
  have hdq := getD50_bounds hbq
  have hdg := getD50_bounds hbg
  have hdv := getD50_bounds hbv
  have hdh := getD50_bounds hbh
  refine ⟨hf, ?_, ?_⟩
  · rw [hf]
    exact (round2_mem_Icc (by nlinarith [hdq.1, hdg.1, hdv.1, hdh.1])
      (by nlinarith [hdq.2, hdg.2, hdv.2, hdh.2, hdq.1, hdg.1, hdv.1, hdh.1])).1
  · rw [hf]
    exact (round2_mem_Icc (by nlinarith [hdq.1, hdg.1, hdv.1, hdh.1])
      (by nlinarith [hdq.2, hdg.2, hdv.2, hdh.2, hdq.1, hdg.1, hdv.1, hdh.1])).2

/-- C1 witness: a 1-stock universe with no metric data at all — every
category score is missing, every category substitutes the neutral 50, and
the fundamental score is round2(50) = 50, inside [0, 100]. -/
theorem fundamental_composite_witness :
    (scoreStock (apply_caps [(⟨1, none, none, []⟩ : FStock)]) ⟨1, none, none, []⟩)
      ∈ calculate_fundamental_scores [(⟨1, none, none, []⟩ : FStock)] ∧
    0 ≤ (scoreStock (apply_caps [(⟨1, none, none, []⟩ : FStock)])
      ⟨1, none, none, []⟩).fundamental_score ∧
    (scoreStock (apply_caps [(⟨1, none, none, []⟩ : FStock)])
      ⟨1, none, none, []⟩).fundamental_score ≤ 100 := by
  have hmem : (scoreStock (apply_caps [(⟨1, none, none, []⟩ : FStock)]) ⟨1, none, none, []⟩)
      ∈ calculate_fundamental_scores [(⟨1, none, none, []⟩ : FStock)] := by
    show _ ∈ [scoreStock (apply_caps [(⟨1, none, none, []⟩ : FStock)]) ⟨1, none, none, []⟩]
    exact List.mem_singleton.mpr rfl
  have h := fundamental_composite [(⟨1, none, none, []⟩ : FStock)] _ hmem
  exact ⟨hmem, h.2.1, h.2.2⟩

/-! ### Claim C8 -/

lemma findIdx_eq_of_get_eq :
    ∀ (l : List (ℕ × RankRow)), (l.map Prod.fst).Nodup →
      ∀ (x : ℕ × RankRow) (k : ℕ) (hk : k < l.length), l.get ⟨k, hk⟩ = x →
        l.findIdx (fun q => q.1 = x.1) = k := by
  intro l
  induction l with
  | nil => intro _ x k hk; exact absurd hk (Nat.not_lt_zero k)
  | cons a l ih =>
    intro hn x k hk hget
    cases k with
    | zero =>
      have ha : a = x := hget
      rw [List.findIdx_cons]
      subst ha
      simp
    | succ k =>
      have hk' : k < l.length := by simpa using Nat.lt_of_succ_lt_succ hk
      have hget' : l.get ⟨k, hk'⟩ = x := hget
      have hxmem : x ∈ l := hget' ▸ List.get_mem l k hk'
      have hxkey : x.1 ∈ l.map Prod.fst := List.mem_map_of_mem Prod.fst hxmem
      have hne : (a.1 = x.1) = False := by
        simp only [eq_iff_iff, iff_false]
        intro hcontra
        exact (List.nodup_cons.mp (by simpa using hn)).1 (hcontra ▸ hxkey)
      rw [List.findIdx_cons]
      have hpa : decide (a.1 = x.1) = false := by
        simp [hne]
      rw [hpa]
      simp only [cond_false]
      rw [ih (List.nodup_cons.mp (by simpa using hn)).2 x k hk' hget']

lemma catRows_keys_nodup (rows : List RankRow) (c : ℕ) :
    ((rows.enum.filter (fun q => q.2.cat = some c)).map Prod.fst).Nodup := by
  have hsub : List.Sublist
      ((rows.enum.filter (fun q => q.2.cat = some c)).map Prod.fst)
      (rows.enum.map Prod.fst) := (List.filter_sublist _).map Prod.fst
  have hnd : (rows.enum.map Prod.fst).Nodup := by
    rw [List.enum_map_fst]
    exact List.nodup_range _
  exact hnd.sublist hsub

lemma catRows_length (rows : List RankRow) (c : ℕ) :
    (rows.enum.filter (fun q => q.2.cat = some c)).length =
      (rows.filter (fun r => r.cat = some c)).length := by
  have h := @List.filter_map (ℕ × RankRow) RankRow
    (fun r => decide (r.cat = some c)) Prod.snd rows.enum
  rw [List.enum_map_snd] at h
  rw [h, List.length_map]
  rfl

lemma sortedCat_keys_nodup (sortFn : List (ℕ × RankRow) → List (ℕ × RankRow))
    (hs : SortsByScoreDesc sortFn) (rows : List RankRow) (c : ℕ) :
    ((sortFn (rows.enum.filter (fun q => q.2.cat = some c))).map Prod.fst).Nodup := by
  have hperm := (hs (rows.enum.filter (fun q => q.2.cat = some c))).1
  exact ((hperm.map Prod.fst).nodup_iff).mpr (catRows_keys_nodup rows c)

lemma sortedCat_map_findIdx (sortFn : List (ℕ × RankRow) → List (ℕ × RankRow))
    (hs : SortsByScoreDesc sortFn) (rows : List RankRow) (c : ℕ) :
    (sortFn (rows.enum.filter (fun q => q.2.cat = some c))).map
      (fun x : ℕ × RankRow => (sortFn
        (rows.enum.filter (fun q => q.2.cat = some c))).findIdx
          (fun r => r.1 = x.1) + 1) =
    List.range' 1 (sortFn
      (rows.enum.filter (fun q => q.2.cat = some c))).length := by
  apply List.ext_getElem
  · simp [List.length_range']
  · intro n h1 h2
    rw [List.getElem_map, List.getElem_range'_1]
    have hn : n < (sortFn
        (rows.enum.filter (fun q => q.2.cat = some c))).length := by
      simpa using h1
    have hfind := findIdx_eq_of_get_eq
      (sortFn (rows.enum.filter (fun q => q.2.cat = some c)))
      (sortedCat_keys_nodup sortFn hs rows c)
      ((sortFn
        (rows.enum.filter (fun q => q.2.cat = some c))).get ⟨n, hn⟩) n hn rfl
    rw [List.get_eq_getElem] at hfind
    rw [hfind]
    omega


lemma ranks_perm (sortFn : List (ℕ × RankRow) → List (ℕ × RankRow))
    (hs : SortsByScoreDesc sortFn) (rows : List RankRow) (c : ℕ) :
    (((calculate_fundamental_ranks sortFn rows).filter (fun p => p.1.cat = some c)).map
      (fun p => p.2)).Perm
      (List.range' 1 ((rows.filter (fun r => r.cat = some c)).length)) := by
  unfold calculate_fundamental_ranks
  rw [List.filter_map, List.map_map]
  have hfilter : List.filter
      ((fun p : RankRow × ℕ => decide (p.1.cat = some c)) ∘
        fun p : ℕ × RankRow => (p.2, rowRank sortFn rows.enum p)) rows.enum
      = List.filter (fun q => decide (q.2.cat = some c)) rows.enum := by
    apply List.filter_congr
    intro x _
    simp [Function.comp]
  rw [hfilter]
  have hmap : ∀ x ∈ List.filter (fun q => decide (q.2.cat = some c)) rows.enum,
      ((fun p : RankRow × ℕ => p.2) ∘
        fun p : ℕ × RankRow => (p.2, rowRank sortFn rows.enum p)) x =
      (fun x : ℕ × RankRow => (sortFn
        (rows.enum.filter (fun q => q.2.cat = some c))).findIdx
          (fun r => r.1 = x.1) + 1) x := by
    intro x hx
    have hxc : x.2.cat = some c := by simpa using (List.mem_filter.mp hx).2
    simp [Function.comp, rowRank, hxc]
  rw [List.map_congr_left hmap]
  have hlen : (sortFn
      (rows.enum.filter (fun q => q.2.cat = some c))).length =
      (rows.filter (fun r => r.cat = some c)).length := by
    rw [(hs (rows.enum.filter (fun q => q.2.cat = some c))).1.length_eq]
    exact catRows_length rows c
  rw [← hlen, ← sortedCat_map_findIdx sortFn hs rows c]
  exact (((hs (rows.enum.filter (fun q => q.2.cat = some c))).1).map _).symm

lemma ranks_null (sortFn : List (ℕ × RankRow) → List (ℕ × RankRow)) (rows : List RankRow) :
    ∀ p ∈ calculate_fundamental_ranks sortFn rows, p.1.cat = none → p.2 = 0 := by
  intro p hp hnone
  unfold calculate_fundamental_ranks at hp
  obtain ⟨q, hq, rfl⟩ := List.mem_map.mp hp
  simp only at hnone ⊢
  simp [rowRank, hnone]

lemma ranks_desc (sortFn : List (ℕ × RankRow) → List (ℕ × RankRow))
    (hs : SortsByScoreDesc sortFn) (rows : List RankRow) (c : ℕ) :
    ∀ p q, p ∈ calculate_fundamental_ranks sortFn rows →
      q ∈ calculate_fundamental_ranks sortFn rows →
      p.1.cat = some c → q.1.cat = some c → p.2 < q.2 → q.1.score ≤ p.1.score := by
  intro p q hp hq hpc hqc hlt
  unfold calculate_fundamental_ranks at hp hq
  obtain ⟨a, ha, rfl⟩ := List.mem_map.mp hp
  obtain ⟨b, hb, rfl⟩ := List.mem_map.mp hq
  simp only at hpc hqc hlt ⊢
  have hamem : a ∈ rows.enum.filter (fun q2 => q2.2.cat = some c) :=
    List.mem_filter.mpr ⟨ha, by simp [hpc]⟩
  have hbmem : b ∈ rows.enum.filter (fun q2 => q2.2.cat = some c) :=
    List.mem_filter.mpr ⟨hb, by simp [hqc]⟩
  obtain ⟨⟨ka, hka⟩, hgeta⟩ := List.mem_iff_get.mp
    (((hs (rows.enum.filter (fun q2 => q2.2.cat = some c))).1.mem_iff).mpr hamem)
  obtain ⟨⟨kb, hkb⟩, hgetb⟩ := List.mem_iff_get.mp
    (((hs (rows.enum.filter (fun q2 => q2.2.cat = some c))).1.mem_iff).mpr hbmem)
  have hfa := findIdx_eq_of_get_eq _ (sortedCat_keys_nodup sortFn hs rows c) a ka hka hgeta
  have hfb := findIdx_eq_of_get_eq _ (sortedCat_keys_nodup sortFn hs rows c) b kb hkb hgetb
  simp only [rowRank, hpc, hqc] at hlt
  rw [hfa, hfb] at hlt
  have hklt : ka < kb := by omega
  have hsorted : List.Sorted rankBefore (sortFn
      (rows.enum.filter (fun q2 => q2.2.cat = some c))) :=
    (hs (rows.enum.filter (fun q2 => q2.2.cat = some c))).2
  have hrel := @List.Sorted.rel_get_of_lt _ _ _ hsorted ⟨ka, hka⟩ ⟨kb, hkb⟩
    (Fin.mk_lt_mk.mpr hklt)
  rw [hgeta, hgetb] at hrel
  exact hrel

/-- C8: counterexample — the `sort_values` contract (the output is a
score-descending permutation of the input; the default quicksort gives no
stability guarantee) admits a sorting function under which tied rows of the
same category are ranked against their pre-existing order: `revSort`
satisfies the contract, the two rows of `c8tie` share category 0 and score
30 with the first row listed first, yet the rank column is (2, 1) instead of
the (1, 2) that a stable tie-break would force. -/
theorem tier_ranks_stability_counterexample :
    SortsByScoreDesc revSort ∧
    (c8tie.get ⟨0, by decide⟩).cat = (c8tie.get ⟨1, by decide⟩).cat ∧
    (c8tie.get ⟨0, by decide⟩).score = (c8tie.get ⟨1, by decide⟩).score ∧
    (calculate_fundamental_ranks revSort c8tie).map (fun p => p.2) = [2, 1] := by
  refine ⟨fun l => ⟨(List.perm_insertionSort rankBefore l.reverse).trans l.reverse_perm,
    List.sorted_insertionSort rankBefore l.reverse⟩, by decide, by decide, by decide⟩

/-- C8 (amended): for every sorting function satisfying the `sort_values`
contract (output a score-descending permutation of the input; the order of
tied scores is unspecified, the default quicksort being documented as not
stable) and every market-cap category c, the ranks assigned to the rows of
category c are exactly a permutation of 1..N (N = category member count, no
gaps, no duplicates), a row with a smaller rank never has a smaller score,
and rows with a null category receive rank 0. -/
theorem tier_ranks_permutation (sortFn : List (ℕ × RankRow) → List (ℕ × RankRow))
    (hs : SortsByScoreDesc sortFn) (rows : List RankRow) (c : ℕ) :
    ((((calculate_fundamental_ranks sortFn rows).filter (fun p => p.1.cat = some c)).map
      (fun p => p.2)).Perm
      (List.range' 1 ((rows.filter (fun r => r.cat = some c)).length))) ∧
    (∀ p ∈ calculate_fundamental_ranks sortFn rows, p.1.cat = none → p.2 = 0) ∧
    (∀ p q, p ∈ calculate_fundamental_ranks sortFn rows →
      q ∈ calculate_fundamental_ranks sortFn rows →
      p.1.cat = some c → q.1.cat = some c → p.2 < q.2 → q.1.score ≤ p.1.score) :=
  ⟨ranks_perm sortFn hs rows c, ranks_null sortFn rows, ranks_desc sortFn hs rows c⟩

/-- C8 witness: with the stable descending sort (one admissible sorting
function) on five rows — category 0 scores (10, 30, 30), one null category,
category 1 score (5) — category 0 ranks are a permutation of 1..3 and the
whole rank column evaluates to (3, 1, 0, 2, 1). -/
theorem tier_ranks_permutation_witness :
    SortsByScoreDesc stableSort ∧
    (((calculate_fundamental_ranks stableSort c8rows).filter
        (fun p => p.1.cat = some 0)).map (fun p => p.2)).Perm
      (List.range' 1 ((c8rows.filter (fun r => r.cat = some 0)).length)) ∧
    (calculate_fundamental_ranks stableSort c8rows).map (fun p => p.2) = [3, 1, 0, 2, 1] := by
  have hs : SortsByScoreDesc stableSort := fun l =>
    ⟨List.perm_insertionSort rankBefore l, List.sorted_insertionSort rankBefore l⟩
  exact ⟨hs, (tier_ranks_permutation stableSort hs c8rows 0).1, by decide⟩
